import Mathlib

/-!
Verification of the tokenization/trivia-attachment stage and the top-level
parsing entry point of the lossless Lua parser (`src/ast/mod.rs`), against a
shallow embedding in Lean.

The tokenizer module, the `parser_util` module (`ParserState`,
`InternalAstError`) and the `parsers` module (`ParseBlock`) are not part of the
provided sources; their definitions below are modelled from the specification
and marked as such.  Everything else is translated from `src/ast/mod.rs`.
-/

namespace FullMoon

/-- Modelled from the spec: token kinds of the missing tokenizer module (§3
"kind tag (keyword, identifier, number literal, string literal, symbol,
whitespace, comment, end-of-file)").  Keywords are `symbol` tokens; positions
are omitted because no modelled operation reads them. -/
inductive TokenType where
  | whitespace (characters : String)
  | singleLineComment (comment : String)
  | identifier (name : String)
  | number (text : String)
  | stringLiteral (text : String)
  | symbol (text : String)
  | eof
  deriving DecidableEq, Repr

/-- Modelled from the spec: a token is its kind tag together with its raw text
(stored inside the kind here, as the tokenizer does). -/
structure Token where
  token_type : TokenType
  deriving DecidableEq, Repr

/-- Modelled from the spec: trivia is "whitespace and comment tokens" (glossary);
mirrors the missing tokenizer's `TokenType::is_trivia`. -/
def TokenType.is_trivia : TokenType → Bool
  | .whitespace _ => true
  | .singleLineComment _ => true
  | _ => false

/-- Modelled from the spec: mirrors the missing tokenizer's `TokenType::ignore`,
which holds exactly for trivia tokens. -/
def TokenType.ignore (t : TokenType) : Bool := t.is_trivia

/-- Modelled from the spec: the raw text a token renders to (the tokenizer's
display); a single-line comment renders with its leading dashes, end-of-file
renders as the empty string. -/
def TokenType.display : TokenType → String
  | .whitespace characters => characters
  | .singleLineComment comment => "--" ++ comment
  | .identifier nm => nm
  | .number text => text
  | .stringLiteral text => text
  | .symbol text => text
  | .eof => ""

/-- The raw text of a token. -/
def Token.display (t : Token) : String := t.token_type.display

/-- From `src/ast/mod.rs`: the `TokenReference` shape used by
`extract_token_references` — a significant token plus its leading and trailing
trivia (the struct itself lives in the missing tokenizer module, but its three
fields are used directly in `extract_token_references`). -/
structure TokenReference where
  leading_trivia : List Token
  token : Token
  trailing_trivia : List Token
  deriving DecidableEq, Repr

/-- From `src/ast/mod.rs` (`extract_token_references`, inner loop): the check
`if let TokenType::Whitespace { characters } = ... if characters.starts_with(newline)`
that stops trailing-trivia consumption.  `starts_with` on a single character is
a head-character test. -/
def Token.breaksTrailingTrivia (t : Token) : Bool :=
  match t.token_type with
  | .whitespace characters =>
    match characters.data with
    | [] => false
    | c :: _ => c == '\n'
  | _ => false

/-- From `src/ast/mod.rs` (`extract_token_references`, inner `while let` loop):
starting just after a significant token, greedily consume following trivia into
its trailing trivia, stopping at a non-trivia token or at whitespace that starts
with a newline.  Returns the consumed trailing trivia and the remaining tokens. -/
def collectTrailing : List Token → List Token × List Token
  | [] => ([], [])
  | t :: rest =>
    if t.token_type.is_trivia then
      if t.breaksTrailingTrivia then ([], t :: rest)
      else
        let p := collectTrailing rest
        (t :: p.1, p.2)
    else ([], t :: rest)

theorem collectTrailing_append (l : List Token) :
    (collectTrailing l).1 ++ (collectTrailing l).2 = l := by
  induction l with
  | nil => simp [collectTrailing]
  | cons t rest ih =>
    simp only [collectTrailing]
    split
    · split
      · simp
      · simpa using ih
    · simp

theorem collectTrailing_snd_length_le (l : List Token) :
    (collectTrailing l).2.length ≤ l.length := by
  conv_rhs => rw [← collectTrailing_append l]
  simp

theorem collectTrailing_fst_mem (l : List Token) (t : Token)
    (h : t ∈ (collectTrailing l).1) :
    t.token_type.is_trivia = true ∧ t.breaksTrailingTrivia = false := by
  induction l with
  | nil => simp [collectTrailing] at h
  | cons u rest ih =>
    simp only [collectTrailing] at h
    by_cases h1 : u.token_type.is_trivia
    · by_cases h2 : u.breaksTrailingTrivia
      · simp [h1, h2] at h
      · simp only [h1, h2] at h
        simp only [if_true, Bool.false_eq_true, if_false, List.mem_cons] at h
        rcases h with rfl | h
        · exact ⟨h1, Bool.eq_false_iff.mpr h2⟩
        · exact ih h
    · simp [h1] at h

/-- From `src/ast/mod.rs` (`extract_token_references`, outer `while let` loop):
trivia tokens accumulate into `leading`; a significant token takes the
accumulated leading trivia, greedily collects trailing trivia, and becomes a
token reference. -/
def extractLoop (leading : List Token) (l : List Token) : List TokenReference :=
  match l with
  | [] => []
  | t :: rest =>
    if t.token_type.is_trivia then
      extractLoop (leading ++ [t]) rest
    else
      let p := collectTrailing rest
      { leading_trivia := leading, token := t, trailing_trivia := p.1 } ::
        extractLoop [] p.2
termination_by l.length
decreasing_by
  · simp
  · have := collectTrailing_snd_length_le rest
    simp
    omega

/-- From `src/ast/mod.rs`: `extract_token_references`. -/
def extract_token_references (tokens : List Token) : List TokenReference :=
  extractLoop [] tokens

theorem extractLoop_nil (leading : List Token) : extractLoop leading [] = [] := by
  rw [extractLoop]

theorem extractLoop_cons_trivia (leading : List Token) (t : Token) (rest : List Token)
    (h : t.token_type.is_trivia = true) :
    extractLoop leading (t :: rest) = extractLoop (leading ++ [t]) rest := by
  rw [extractLoop]
  simp [h]

theorem extractLoop_cons_sig (leading : List Token) (t : Token) (rest : List Token)
    (h : t.token_type.is_trivia = false) :
    extractLoop leading (t :: rest) =
      { leading_trivia := leading, token := t,
        trailing_trivia := (collectTrailing rest).1 } ::
        extractLoop [] (collectTrailing rest).2 := by
  rw [extractLoop]
  simp [h]

/-- From `src/ast/mod.rs` (`extract_token_references`, inner loop): the
iterator's `next()` call whose result is unwrapped; `none` on an empty iterator
models the potential `unwrap()` panic. -/
def next_unwrap : List Token → Option (Token × List Token)
  | [] => none
  | t :: rest => some (t, rest)

/-- From `src/ast/mod.rs` (`extract_token_references`, inner loop), with the
`tokens.next().unwrap()` made explicit: after a successful `peek` of a
non-breaking trivia token, `next()` is taken and unwrapped — a `none` result
models a panic of that `unwrap()`. -/
def collectTrailingChecked (l : List Token) : Option (List Token × List Token) :=
  match l with
  | [] => some ([], [])
  | t :: rest =>
    if t.token_type.is_trivia then
      if t.breaksTrailingTrivia then some ([], t :: rest)
      else
        match h : next_unwrap (t :: rest) with
        | none => none
        | some (u, rest2) =>
          match collectTrailingChecked rest2 with
          | none => none
          | some p => some (u :: p.1, p.2)
    else some ([], t :: rest)
termination_by l.length
decreasing_by
  simp [next_unwrap] at h
  simp [h]

theorem collectTrailingChecked_eq (l : List Token) :
    collectTrailingChecked l = some (collectTrailing l) := by
  induction l with
  | nil => rw [collectTrailingChecked]; rw [collectTrailing]
  | cons t rest ih =>
    rw [collectTrailingChecked]
    rw [show collectTrailing (t :: rest) =
        (if t.token_type.is_trivia then
          if t.breaksTrailingTrivia then ([], t :: rest)
          else ((t :: (collectTrailing rest).1, (collectTrailing rest).2))
        else ([], t :: rest)) from rfl]
    by_cases h1 : t.token_type.is_trivia
    · by_cases h2 : t.breaksTrailingTrivia
      · simp [h1, h2]
      · simp only [h1, h2, if_true, Bool.false_eq_true, if_false]
        simp [next_unwrap, ih]
    · simp [h1]

/-- From `src/ast/mod.rs` (`extract_token_references`, outer loop), threading
the possible-panic of the inner loop's `unwrap()` through as `none`. -/
def extractLoopChecked (leading : List Token) (l : List Token) :
    Option (List TokenReference) :=
  match l with
  | [] => some []
  | t :: rest =>
    if t.token_type.is_trivia then
      extractLoopChecked (leading ++ [t]) rest
    else
      match h : collectTrailingChecked rest with
      | none => none
      | some p =>
        match extractLoopChecked [] p.2 with
        | none => none
        | some refs =>
          some ({ leading_trivia := leading, token := t,
                  trailing_trivia := p.1 } :: refs)
termination_by l.length
decreasing_by
  · simp
  · rw [collectTrailingChecked_eq] at h
    have hle := collectTrailing_snd_length_le rest
    cases h
    simp
    omega

/-- From `src/ast/mod.rs`: `extract_token_references`, with the internal
`unwrap()` modelled as a possible failure instead of being assumed safe. -/
def extract_token_references_checked (tokens : List Token) :
    Option (List TokenReference) :=
  extractLoopChecked [] tokens

theorem extractLoopChecked_eq (n : Nat) :
    ∀ (l : List Token) (leading : List Token), l.length ≤ n →
      extractLoopChecked leading l = some (extractLoop leading l) := by
  induction n with
  | zero =>
    intro l leading hlen
    have : l = [] := List.length_eq_zero.mp (Nat.le_zero.mp hlen)
    subst this
    rw [extractLoopChecked, extractLoop_nil]
  | succ n ih =>
    intro l leading hlen
    match l with
    | [] => rw [extractLoopChecked, extractLoop_nil]
    | t :: rest =>
      have hrest : rest.length ≤ n := by simp at hlen; omega
      rw [extractLoopChecked]
      by_cases h1 : t.token_type.is_trivia
      · rw [extractLoop_cons_trivia leading t rest h1]
        simp only [h1, if_true]
        exact ih rest (leading ++ [t]) hrest
      · rw [extractLoop_cons_sig leading t rest (Bool.eq_false_iff.mpr h1)]
        simp only [h1, Bool.false_eq_true, if_false]
        split
        · next h => rw [collectTrailingChecked_eq] at h; exact absurd h (by simp)
        · next p h =>
          rw [collectTrailingChecked_eq] at h
          injection h with h2
          subst h2
          rw [ih (collectTrailing rest).2 []
            (Nat.le_trans (collectTrailing_snd_length_le rest) hrest)]

/-- The tokens a reference carries, in rendering order: leading trivia, the
significant token, trailing trivia. -/
def TokenReference.tokensOf (r : TokenReference) : List Token :=
  r.leading_trivia ++ r.token :: r.trailing_trivia

/-- Concatenation of the raw texts of a token list, in order. -/
def concatDisplay (l : List Token) : String :=
  (l.map Token.display).foldr (· ++ ·) ""

/-- The text a token reference renders to: leading trivia texts, then the
token text, then trailing trivia texts. -/
def TokenReference.display (r : TokenReference) : String :=
  concatDisplay r.leading_trivia ++ r.token.display ++ concatDisplay r.trailing_trivia

/-- The text a token-reference sequence renders to, in order. -/
def renderReferences (refs : List TokenReference) : String :=
  (refs.map TokenReference.display).foldr (· ++ ·) ""

theorem foldr_append_string (l : List String) (init : String) :
    l.foldr (· ++ ·) init = l.foldr (· ++ ·) "" ++ init := by
  induction l with
  | nil => simp [String.empty_append]
  | cons a as ih =>
    simp only [List.foldr_cons, ih]
    rw [String.append_assoc]

theorem concatDisplay_append (a b : List Token) :
    concatDisplay (a ++ b) = concatDisplay a ++ concatDisplay b := by
  simp only [concatDisplay, List.map_append, List.foldr_append]
  rw [foldr_append_string]

theorem renderReferences_flatMap (refs : List TokenReference) :
    renderReferences refs = concatDisplay (refs.flatMap TokenReference.tokensOf) := by
  induction refs with
  | nil => simp [renderReferences, concatDisplay]
  | cons r rs ih =>
    have h1 : TokenReference.display r = concatDisplay (TokenReference.tokensOf r) := by
      simp only [TokenReference.display, TokenReference.tokensOf, concatDisplay_append]
      simp only [concatDisplay, List.map_cons, List.foldr_cons]
      rw [String.append_assoc]
    rw [show renderReferences (r :: rs) = r.display ++ renderReferences rs from rfl,
      show (r :: rs).flatMap TokenReference.tokensOf
        = r.tokensOf ++ rs.flatMap TokenReference.tokensOf from rfl,
      concatDisplay_append, h1, ih]

theorem extractLoop_flatMap (n : Nat) :
    ∀ (l leading : List Token) (lastTok : Token), l.length ≤ n →
      l.getLast? = some lastTok → lastTok.token_type.is_trivia = false →
      (extractLoop leading l).flatMap TokenReference.tokensOf = leading ++ l := by
  induction n with
  | zero =>
    intro l leading lastTok hlen hlast _
    have : l = [] := List.length_eq_zero.mp (Nat.le_zero.mp hlen)
    subst this
    simp at hlast
  | succ n ih =>
    intro l leading lastTok hlen hlast htriv
    match l with
    | [] => simp at hlast
    | t :: rest =>
      have hrest : rest.length ≤ n := by simp at hlen; omega
      by_cases h1 : t.token_type.is_trivia
      · have hne : rest ≠ [] := by
          intro h
          subst h
          simp at hlast
          subst hlast
          rw [h1] at htriv
          exact absurd htriv (by simp)
        have hlast2 : rest.getLast? = some lastTok := by
          cases rest with
          | nil => exact absurd rfl hne
          | cons a as => rw [← hlast, List.getLast?_cons_cons]
        rw [extractLoop_cons_trivia leading t rest h1,
          ih rest (leading ++ [t]) lastTok hrest hlast2 htriv]
        simp
      · rw [extractLoop_cons_sig leading t rest (Bool.not_eq_true _ |>.mp h1)]
        cases hp2 : (collectTrailing rest).2 with
        | nil =>
          have happ := collectTrailing_append rest
          rw [hp2, List.append_nil] at happ
          cases hrn : rest with
          | nil =>
            subst hrn
            simp at hlast
            rw [show collectTrailing [] = ([], []) from rfl]
            simp [extractLoop_nil, TokenReference.tokensOf]
          | cons a as =>
            subst hrn
            have hlast2 : (a :: as).getLast? = some lastTok := by
              rw [← hlast, List.getLast?_cons_cons]
            have hmem : lastTok ∈ (collectTrailing (a :: as)).1 := by
              rw [happ]
              exact List.mem_of_mem_getLast? (by simp [hlast2])
            have := (collectTrailing_fst_mem _ lastTok hmem).1
            rw [htriv] at this
            exact absurd this (by simp)
        | cons u us =>
          have hp2ne : (collectTrailing rest).2 ≠ [] := by rw [hp2]; simp
          have happ := collectTrailing_append rest
          have hrestne : rest ≠ [] := by
            intro h
            subst h
            rw [show collectTrailing ([] : List Token) = ([], []) from rfl] at hp2
            simp at hp2
          have hlast2 : rest.getLast? = some lastTok := by
            cases rest with
            | nil => exact absurd rfl hrestne
            | cons a as => rw [← hlast, List.getLast?_cons_cons]
          have hlast3 : (collectTrailing rest).2.getLast? = some lastTok := by
            rw [← happ] at hlast2
            rwa [List.getLast?_append_of_ne_nil _ hp2ne] at hlast2
          have hlen2 : (collectTrailing rest).2.length ≤ n :=
            Nat.le_trans (collectTrailing_snd_length_le rest) hrest
          rw [← hp2]
          rw [List.flatMap_cons, ih _ [] lastTok hlen2 hlast3 htriv]
          simp only [TokenReference.tokensOf]
          conv_rhs => rw [show (t :: rest : List Token) = t :: ((collectTrailing rest).1 ++ (collectTrailing rest).2) by rw [happ]]
          simp

theorem extractLoop_map_token (n : Nat) :
    ∀ (l leading : List Token), l.length ≤ n →
      (extractLoop leading l).map TokenReference.token =
        l.filter (fun t => !t.token_type.is_trivia) := by
  induction n with
  | zero =>
    intro l leading hlen
    have : l = [] := List.length_eq_zero.mp (Nat.le_zero.mp hlen)
    subst this
    simp [extractLoop_nil]
  | succ n ih =>
    intro l leading hlen
    match l with
    | [] => simp [extractLoop_nil]
    | t :: rest =>
      have hrest : rest.length ≤ n := by simp at hlen; omega
      by_cases h1 : t.token_type.is_trivia
      · rw [extractLoop_cons_trivia leading t rest h1, ih rest (leading ++ [t]) hrest]
        simp [h1]
      · rw [extractLoop_cons_sig leading t rest (Bool.not_eq_true _ |>.mp h1)]
        have happ := collectTrailing_append rest
        have hfiltst : (collectTrailing rest).1.filter (fun t => !t.token_type.is_trivia) = [] := by
          rw [List.filter_eq_nil_iff]
          intro a ha
          have := (collectTrailing_fst_mem rest a ha).1
          simp [this]
        have hlen2 : (collectTrailing rest).2.length ≤ n :=
          Nat.le_trans (collectTrailing_snd_length_le rest) hrest
        rw [List.map_cons, ih _ [] hlen2]
        conv_rhs => rw [show (t :: rest : List Token) = t :: ((collectTrailing rest).1 ++ (collectTrailing rest).2) by rw [happ]]
        simp [h1, List.filter_append, hfiltst]

theorem extractLoop_trailing (n : Nat) :
    ∀ (l leading : List Token) (r : TokenReference) (t : Token), l.length ≤ n →
      r ∈ extractLoop leading l → t ∈ r.trailing_trivia →
      t.token_type.is_trivia = true ∧ t.breaksTrailingTrivia = false := by
  induction n with
  | zero =>
    intro l leading r t hlen hr _
    have : l = [] := List.length_eq_zero.mp (Nat.le_zero.mp hlen)
    subst this
    rw [extractLoop_nil] at hr
    simp at hr
  | succ n ih =>
    intro l leading r t hlen hr ht
    match l with
    | [] =>
      rw [extractLoop_nil] at hr
      simp at hr
    | u :: rest =>
      have hrest : rest.length ≤ n := by simp at hlen; omega
      by_cases h1 : u.token_type.is_trivia
      · rw [extractLoop_cons_trivia leading u rest h1] at hr
        exact ih rest (leading ++ [u]) r t hrest hr ht
      · rw [extractLoop_cons_sig leading u rest (Bool.not_eq_true _ |>.mp h1)] at hr
        rcases List.mem_cons.mp hr with rfl | hr2
        · exact collectTrailing_fst_mem rest t ht
        · have hlen2 : (collectTrailing rest).2.length ≤ n :=
            Nat.le_trans (collectTrailing_snd_length_le rest) hrest
          exact ih _ [] r t hlen2 hr2 ht

/-- The spec's predicate for claim C2: a whitespace token whose text contains a
newline character anywhere in it. -/
def Token.newlineWhitespace (t : Token) : Bool :=
  match t.token_type with
  | .whitespace characters => characters.data.contains '\n'
  | _ => false

/-- C1: for every token list ending in an end-of-file token, concatenating each
reference's leading-trivia texts, token text and trailing-trivia texts over the
output of `extract_token_references`, in order, yields exactly the
concatenation of the texts of all input tokens in their original order; indeed
the flattened token sequence is the input list itself — no token dropped,
duplicated or reordered. -/
theorem c1_extract_round_trip (tokens : List Token) (lastTok : Token)
    (h1 : tokens.getLast? = some lastTok) (h2 : lastTok.token_type = TokenType.eof) :
    (extract_token_references tokens).flatMap TokenReference.tokensOf = tokens ∧
    renderReferences (extract_token_references tokens) = concatDisplay tokens := by
  have htriv : lastTok.token_type.is_trivia = false := by rw [h2]; rfl
  have hflat := extractLoop_flatMap tokens.length tokens [] lastTok le_rfl h1 htriv
  rw [List.nil_append] at hflat
  rw [extract_token_references]
  exact ⟨hflat, by rw [renderReferences_flatMap, hflat]⟩

theorem c1_extract_round_trip_witness :
    (extract_token_references
        [⟨.identifier "x"⟩, ⟨.whitespace " "⟩, ⟨.eof⟩]).flatMap TokenReference.tokensOf =
      [⟨.identifier "x"⟩, ⟨.whitespace " "⟩, ⟨.eof⟩] ∧
    renderReferences (extract_token_references
        [⟨.identifier "x"⟩, ⟨.whitespace " "⟩, ⟨.eof⟩]) =
      concatDisplay [⟨.identifier "x"⟩, ⟨.whitespace " "⟩, ⟨.eof⟩] :=
  c1_extract_round_trip [⟨.identifier "x"⟩, ⟨.whitespace " "⟩, ⟨.eof⟩] ⟨.eof⟩ rfl rfl

theorem c2_eval_newline_example : extract_token_references
    [⟨.identifier "x"⟩, ⟨.whitespace " \n"⟩, ⟨.eof⟩] =
    [⟨[], ⟨.identifier "x"⟩, [⟨.whitespace " \n"⟩]⟩, ⟨[], ⟨.eof⟩, []⟩] := by
  simp [extract_token_references, extractLoop_cons_sig, extractLoop_cons_trivia,
    extractLoop_nil, collectTrailing, TokenType.is_trivia, Token.breaksTrailingTrivia]

/-- C2 counterexample: on the token list of the source text `"x \n"` (an
identifier, then the whitespace token consisting of a space followed by a
newline, then end-of-file), the reference for `x` receives that
newline-containing whitespace token as trailing trivia, so the claim that
trailing trivia never contains a whitespace token whose text contains a newline
anywhere is false. -/
theorem c2_counterexample :
    ¬ (∀ r ∈ extract_token_references
          [⟨.identifier "x"⟩, ⟨.whitespace " \n"⟩, ⟨.eof⟩],
        ∀ t ∈ r.trailing_trivia, t.newlineWhitespace = false) := by
  intro h
  have h2 := h ⟨[], ⟨.identifier "x"⟩, [⟨.whitespace " \n"⟩]⟩
    (by rw [c2_eval_newline_example]; simp)
    ⟨.whitespace " \n"⟩ (by simp)
  have h3 : (⟨TokenType.whitespace " \n"⟩ : Token).newlineWhitespace = true := by
    simp [Token.newlineWhitespace]
  rw [h3] at h2
  exact absurd h2 (by simp)

/-- C2 (amended): for every token reference produced by
`extract_token_references`, (1) the trailing trivia contains only trivia tokens
and no element that is a whitespace token whose text *starts with* a newline
character — such a token stops trailing-trivia consumption instead — and
(2) whenever the trivia between a reference and the next one (the first's
trailing trivia followed by the second's leading trivia) has a
newline-starting whitespace token at any position, that token and everything
after it up to the next significant token lies in the next reference's leading
trivia. -/
theorem c2_newline_whitespace_partition (tokens : List Token) :
    (∀ r ∈ extract_token_references tokens, ∀ t ∈ r.trailing_trivia,
      t.token_type.is_trivia = true ∧ t.breaksTrailingTrivia = false) ∧
    (∀ (i : Nat) (r r2 : TokenReference),
      (extract_token_references tokens).get? i = some r →
      (extract_token_references tokens).get? (i + 1) = some r2 →
      ∀ (pre : List Token) (w : Token) (post : List Token),
        r.trailing_trivia ++ r2.leading_trivia = pre ++ w :: post →
        w.breaksTrailingTrivia = true →
        ∃ pre2, r2.leading_trivia = pre2 ++ w :: post) := by
  have h1 : ∀ r ∈ extract_token_references tokens, ∀ t ∈ r.trailing_trivia,
      t.token_type.is_trivia = true ∧ t.breaksTrailingTrivia = false :=
    fun r hr t ht => extractLoop_trailing tokens.length tokens [] r t le_rfl hr ht
  refine ⟨h1, ?_⟩
  intro i r r2 hi _hi2 pre w post hsplit hw
  have hrmem : r ∈ extract_token_references tokens := List.get?_mem hi
  rcases List.append_eq_append_iff.mp hsplit with ⟨a2, _, ha⟩ | ⟨c2, hc1, hc2⟩
  · exact ⟨a2, ha⟩
  · cases c2 with
    | nil =>
      refine ⟨[], ?_⟩
      rw [List.nil_append] at hc2 ⊢
      exact hc2.symm
    | cons u c3 =>
      have hu : u = w := by
        have := hc2.symm
        simp only [List.cons_append, List.cons.injEq] at this
        exact this.1
      subst hu
      have humem : u ∈ r.trailing_trivia := by
        rw [hc1]
        simp
      have := (h1 r hrmem u humem).2
      rw [hw] at this
      exact absurd this (by simp)

/-- Modelled from the spec: the token sequence of a source text like
`"x \n-- c\ny"` — an identifier, a space, a newline whitespace token, a
comment, a second identifier, end-of-file — used to exercise the split of
inter-token trivia at the newline-starting whitespace. -/
def c2WitnessTokens : List Token :=
  [⟨.identifier "x"⟩, ⟨.whitespace " "⟩, ⟨.whitespace "\n"⟩,
   ⟨.singleLineComment " c"⟩, ⟨.identifier "y"⟩, ⟨.eof⟩]

theorem c2WitnessTokens_eval : extract_token_references c2WitnessTokens =
    [⟨[], ⟨.identifier "x"⟩, [⟨.whitespace " "⟩]⟩,
     ⟨[⟨.whitespace "\n"⟩, ⟨.singleLineComment " c"⟩], ⟨.identifier "y"⟩, []⟩,
     ⟨[], ⟨.eof⟩, []⟩] := by
  simp [c2WitnessTokens, extract_token_references, extractLoop_cons_sig,
    extractLoop_cons_trivia, extractLoop_nil, collectTrailing,
    TokenType.is_trivia, Token.breaksTrailingTrivia]

theorem c2_newline_whitespace_partition_witness :
    ∃ pre2, ([⟨.whitespace "\n"⟩, ⟨.singleLineComment " c"⟩] : List Token) =
      pre2 ++ (⟨.whitespace "\n"⟩ : Token) :: [⟨.singleLineComment " c"⟩] :=
  (c2_newline_whitespace_partition c2WitnessTokens).2 0
    ⟨[], ⟨.identifier "x"⟩, [⟨.whitespace " "⟩]⟩
    ⟨[⟨.whitespace "\n"⟩, ⟨.singleLineComment " c"⟩], ⟨.identifier "y"⟩, []⟩
    (by rw [c2WitnessTokens_eval]; rfl)
    (by rw [c2WitnessTokens_eval]; rfl)
    [⟨.whitespace " "⟩] ⟨.whitespace "\n"⟩ [⟨.singleLineComment " c"⟩]
    rfl
    (by simp [Token.breaksTrailingTrivia])

/-- C7: `extract_token_references` is total — the variant that models the inner
loop's `peek`/`next().unwrap()` pattern with an explicit `Option` never hits
the panic path, and returns exactly the token-reference list of the total
function, on every input token list. -/
theorem c7_extract_total_no_panic (tokens : List Token) :
    extract_token_references_checked tokens = some (extract_token_references tokens) :=
  extractLoopChecked_eq tokens.length tokens [] le_rfl

/-- Modelled from the spec: the token sequence the tokenizer produces for the
source text `"print(1)\n-- hello world\nlocal foo -- this is the word foo"`
(§8 "Example — trivia split" and the unit test `test_extract_token_references`):
`local` is a keyword, hence a symbol token; a single-line comment token stores
the text after `--`. -/
def exampleTokens : List Token :=
  [⟨.identifier "print"⟩, ⟨.symbol "("⟩, ⟨.number "1"⟩, ⟨.symbol ")"⟩,
   ⟨.whitespace "\n"⟩, ⟨.singleLineComment " hello world"⟩, ⟨.whitespace "\n"⟩,
   ⟨.symbol "local"⟩, ⟨.whitespace " "⟩, ⟨.identifier "foo"⟩, ⟨.whitespace " "⟩,
   ⟨.singleLineComment " this is the word foo"⟩, ⟨.eof⟩]

theorem c8_eval : extract_token_references exampleTokens =
    [⟨[], ⟨.identifier "print"⟩, []⟩,
     ⟨[], ⟨.symbol "("⟩, []⟩,
     ⟨[], ⟨.number "1"⟩, []⟩,
     ⟨[], ⟨.symbol ")"⟩, []⟩,
     ⟨[⟨.whitespace "\n"⟩, ⟨.singleLineComment " hello world"⟩, ⟨.whitespace "\n"⟩],
       ⟨.symbol "local"⟩, [⟨.whitespace " "⟩]⟩,
     ⟨[], ⟨.identifier "foo"⟩,
       [⟨.whitespace " "⟩, ⟨.singleLineComment " this is the word foo"⟩]⟩,
     ⟨[], ⟨.eof⟩, []⟩] := by
  simp [exampleTokens, extract_token_references, extractLoop_cons_sig,
    extractLoop_cons_trivia, extractLoop_nil, collectTrailing,
    TokenType.is_trivia, Token.breaksTrailingTrivia]

/-- C8: on the token sequence of
`"print(1)\n-- hello world\nlocal foo -- this is the word foo"`,
`extract_token_references` yields seven references; the reference of `local`
carries, in source order, newline, comment `-- hello world`, newline as leading
trivia and the single following space as trailing trivia; and the reference of
the identifier `foo` carries the space before the trailing comment (then that
comment) as trailing trivia. -/
theorem c8_example_split :
    (extract_token_references exampleTokens).length = 7 ∧
    (extract_token_references exampleTokens).get? 4 = some
      ⟨[⟨.whitespace "\n"⟩, ⟨.singleLineComment " hello world"⟩, ⟨.whitespace "\n"⟩],
        ⟨.symbol "local"⟩, [⟨.whitespace " "⟩]⟩ ∧
    (extract_token_references exampleTokens).get? 5 = some
      ⟨[], ⟨.identifier "foo"⟩,
        [⟨.whitespace " "⟩, ⟨.singleLineComment " this is the word foo"⟩]⟩ ∧
    ((extract_token_references exampleTokens).get? 5).map
      (fun r => r.trailing_trivia.head?) = some (some ⟨.whitespace " "⟩) := by
  rw [c8_eval]
  refine ⟨rfl, rfl, rfl, rfl⟩

/-- Modelled from the spec: the two-tier internal failure kind of the missing
`parser_util` module (§4.3): `NoMatch` is recoverable by alternation,
`UnexpectedToken` is definite and carries the offending token and an optional
diagnostic. -/
inductive InternalAstError where
  | noMatch
  | unexpectedToken (token : Token) (additional : Option String)
  deriving DecidableEq, Repr

/-- From `src/ast/mod.rs`: `AstError` — `Empty`, `NoEof`, or `UnexpectedToken`
with the offending token and optional additional information. -/
inductive AstError where
  | empty
  | noEof
  | unexpectedToken (token : Token) (additional : Option String)
  deriving DecidableEq, Repr

/-- Modelled from the spec: the cursor of the missing `parser_util` module —
"an index into the token-reference sequence" (§3, glossary) together with that
sequence. -/
structure ParserState where
  index : Nat
  tokens : List TokenReference
  deriving DecidableEq, Repr

/-- Modelled from the spec: `peek` returns the reference at the cursor; out of
bounds the source panics, modelled as `none`. -/
def ParserState.peek (s : ParserState) : Option TokenReference :=
  s.tokens.get? s.index

/-- Modelled from the spec: `advance` moves the cursor one reference forward,
`none` once it cannot stay inside the reference sequence. -/
def ParserState.advance (s : ParserState) : Option ParserState :=
  if s.index + 1 < s.tokens.length then some ⟨s.index + 1, s.tokens⟩ else none

/-- From `src/ast/mod.rs`: `Block` — statements each with an optional
separator, plus an optional last statement with an optional separator.  The
statement node types belong to the external grammar (§2), so they are type
parameters here. -/
structure Block (S L : Type) where
  stmts : List (S × Option TokenReference)
  last_stmt : Option (L × Option TokenReference)
  deriving DecidableEq, Repr

/-- From `src/ast/mod.rs`: `Ast` — the root block and the token-reference
sequence the tree was built from. -/
structure Ast (S L : Type) where
  nodes : Block S L
  tokens : List TokenReference
  deriving DecidableEq, Repr

/-- From `src/ast/mod.rs`: `Ast::eof` returns the last token reference; the
`expect("no eof token, somehow?")` panic is modelled as `none`. -/
def Ast.eof {S L : Type} (a : Ast S L) : Option TokenReference :=
  a.tokens.getLast?

/-- From `src/ast/mod.rs`: `Ast::iter_tokens` — its body is
`unimplemented!("Ast::iter_tokens")` and panics unconditionally before
producing anything; the unconditional panic is modelled as `none`. -/
def Ast.iter_tokens {S L : Type} (_a : Ast S L) : Option (List Token) := none

/-- From `src/ast/mod.rs`: `Ast::from_tokens`, with the root grammar
production `parsers::ParseBlock` (in the missing `parsers` module; the grammar
is an external collaborator per §2) taken as a parameter, and every panic path
of the source modelled as `none`: the guards, the trivia-only shortcut, the
skip of an ignored first reference, the run of the root production, the
leftover-token check, and the translation of internal failures. -/
def from_tokens {S L : Type}
    (parseBlock : ParserState → Except InternalAstError (ParserState × Block S L))
    (tokens : List Token) : Option (Except AstError (Ast S L)) :=
  match tokens.getLast? with
  | none => some (.error .empty)
  | some lastTok =>
    if lastTok.token_type = TokenType.eof then
      let refs := extract_token_references tokens
      if (refs.filter (fun r => !r.token.token_type.ignore)).length = 1 then
        some (.ok ⟨⟨[], none⟩, refs⟩)
      else
        match ParserState.peek ⟨0, refs⟩ with
        | none => none
        | some first =>
          match (if first.token.token_type.ignore then ParserState.advance ⟨0, refs⟩
                 else some ⟨0, refs⟩) with
          | none => none
          | some state =>
            match parseBlock state with
            | .ok (state2, block) =>
              if state2.index = refs.length - 1 then
                some (.ok ⟨block, refs⟩)
              else
                match state2.peek with
                | none => none
                | some r =>
                  some (.error (.unexpectedToken r.token (some "leftover token")))
            | .error .noMatch =>
              match state.peek with
              | none => none
              | some r => some (.error (.unexpectedToken r.token none))
            | .error (.unexpectedToken t a) =>
              some (.error (.unexpectedToken t a))
    else some (.error .noEof)

theorem extract_map_token (tokens : List Token) :
    (extract_token_references tokens).map TokenReference.token =
      tokens.filter (fun t => !t.token_type.is_trivia) :=
  extractLoop_map_token tokens.length tokens [] le_rfl

theorem extract_token_significant (tokens : List Token) (r : TokenReference)
    (hr : r ∈ extract_token_references tokens) :
    r.token.token_type.is_trivia = false := by
  have hmem : r.token ∈ (extract_token_references tokens).map TokenReference.token :=
    List.mem_map_of_mem TokenReference.token hr
  rw [extract_map_token] at hmem
  have := (List.mem_filter.mp hmem).2
  simpa using this

theorem extract_getLast_eof (tokens : List Token) (lastTok : Token)
    (h1 : tokens.getLast? = some lastTok)
    (h2 : lastTok.token_type.is_trivia = false) :
    ∃ r, (extract_token_references tokens).getLast? = some r ∧ r.token = lastTok := by
  have hne : tokens ≠ [] := by intro h; rw [h] at h1; simp at h1
  have hsplit : tokens.dropLast ++ [lastTok] = tokens := by
    have hgl : tokens.getLast hne = lastTok := by
      have := List.getLast?_eq_getLast tokens hne
      rw [h1] at this
      exact (Option.some_injective _ this.symm)
    rw [← hgl]
    exact List.dropLast_append_getLast hne
  have hfilt : tokens.filter (fun t => !t.token_type.is_trivia) =
      tokens.dropLast.filter (fun t => !t.token_type.is_trivia) ++ [lastTok] := by
    conv_lhs => rw [← hsplit]
    rw [List.filter_append]
    simp [h2]
  have hmap := extract_map_token tokens
  rw [hfilt] at hmap
  have hlast2 : ((extract_token_references tokens).map TokenReference.token).getLast?
      = some lastTok := by
    rw [hmap, List.getLast?_append_of_ne_nil _ (by simp)]
    rfl
  rw [List.getLast?_map] at hlast2
  cases hgl : (extract_token_references tokens).getLast? with
  | none => rw [hgl] at hlast2; simp at hlast2
  | some r =>
    rw [hgl] at hlast2
    simp at hlast2
    exact ⟨r, rfl, hlast2⟩

theorem getLast?_split (tokens : List Token) (lastTok : Token)
    (h1 : tokens.getLast? = some lastTok) :
    tokens.dropLast ++ [lastTok] = tokens := by
  have hne : tokens ≠ [] := by intro h; rw [h] at h1; simp at h1
  have hgl : tokens.getLast hne = lastTok := by
    have := List.getLast?_eq_getLast tokens hne
    rw [h1] at this
    exact (Option.some_injective _ this.symm)
  rw [← hgl]
  exact List.dropLast_append_getLast hne

theorem from_tokens_guard_empty {S L : Type}
    (parseBlock : ParserState → Except InternalAstError (ParserState × Block S L))
    (tokens : List Token) (h : tokens.getLast? = none) :
    from_tokens parseBlock tokens = some (.error .empty) := by
  simp [from_tokens, h]

theorem from_tokens_guard_noEof {S L : Type}
    (parseBlock : ParserState → Except InternalAstError (ParserState × Block S L))
    (tokens : List Token) (lastTok : Token)
    (h1 : tokens.getLast? = some lastTok)
    (h2 : lastTok.token_type ≠ TokenType.eof) :
    from_tokens parseBlock tokens = some (.error .noEof) := by
  simp only [from_tokens, h1]
  rw [if_neg h2]

theorem from_tokens_eof_shape {S L : Type}
    (parseBlock : ParserState → Except InternalAstError (ParserState × Block S L))
    (tokens : List Token) (lastTok : Token)
    (h1 : tokens.getLast? = some lastTok)
    (h2 : lastTok.token_type = TokenType.eof) :
    (∃ a, from_tokens parseBlock tokens = some (.ok a) ∧
      a.tokens = extract_token_references tokens) ∨
    from_tokens parseBlock tokens = none ∨
    (∃ t add, from_tokens parseBlock tokens =
      some (.error (.unexpectedToken t add))) := by
  simp only [from_tokens, h1]
  rw [if_pos h2]
  repeat' split
  all_goals first
    | exact Or.inl ⟨_, rfl, rfl⟩
    | exact Or.inr (Or.inl rfl)
    | exact Or.inr (Or.inr ⟨_, _, rfl⟩)

theorem from_tokens_run {S L : Type}
    (parseBlock : ParserState → Except InternalAstError (ParserState × Block S L))
    (tokens : List Token) (lastTok : Token)
    (h1 : tokens.getLast? = some lastTok)
    (h2 : lastTok.token_type = TokenType.eof)
    (h3 : ((extract_token_references tokens).filter
      (fun r => !r.token.token_type.ignore)).length ≠ 1) :
    from_tokens parseBlock tokens =
      (match parseBlock ⟨0, extract_token_references tokens⟩ with
      | .ok (state2, block) =>
        if state2.index = (extract_token_references tokens).length - 1 then
          some (.ok ⟨block, extract_token_references tokens⟩)
        else
          match state2.peek with
          | none => none
          | some r => some (.error (.unexpectedToken r.token (some "leftover token")))
      | .error .noMatch =>
        match ParserState.peek ⟨0, extract_token_references tokens⟩ with
        | none => none
        | some r => some (.error (.unexpectedToken r.token none))
      | .error (.unexpectedToken t a) => some (.error (.unexpectedToken t a))) := by
  have heof : lastTok.token_type.is_trivia = false := by rw [h2]; rfl
  obtain ⟨rl, hrl, _⟩ := extract_getLast_eof tokens lastTok h1 heof
  have hne : extract_token_references tokens ≠ [] := by
    intro h
    rw [h] at hrl
    simp at hrl
  obtain ⟨r0, rs, hcons⟩ := List.exists_cons_of_ne_nil hne
  have hr0sig : r0.token.token_type.is_trivia = false :=
    extract_token_significant tokens r0 (by rw [hcons]; simp)
  have hpeek : ParserState.peek ⟨0, extract_token_references tokens⟩ = some r0 := by
    simp [ParserState.peek, hcons]
  have hig : r0.token.token_type.ignore = false := by
    simp [TokenType.ignore, hr0sig]
  conv_lhs => simp only [from_tokens, h1]
  rw [if_pos h2, if_neg h3, hpeek]
  simp only [hig, Bool.false_eq_true, if_false]
  cases hp : parseBlock ⟨0, extract_token_references tokens⟩ with
  | ok pr => rfl
  | error ie =>
    cases ie with
    | noMatch => rw [hpeek]
    | unexpectedToken t a => rfl

/-- C3: when the root block production succeeds but the resulting cursor does
not sit at the final end-of-file reference, `from_tokens` returns an
UnexpectedToken error whose token is the significant token at the cursor, with
additional diagnostic "leftover token", and no tree. -/
theorem c3_leftover_token {S L : Type}
    (parseBlock : ParserState → Except InternalAstError (ParserState × Block S L))
    (tokens : List Token) (lastTok : Token)
    (s2 : ParserState) (block : Block S L) (r : TokenReference)
    (h1 : tokens.getLast? = some lastTok)
    (h2 : lastTok.token_type = TokenType.eof)
    (h3 : ((extract_token_references tokens).filter
      (fun r => !r.token.token_type.ignore)).length ≠ 1)
    (h4 : parseBlock ⟨0, extract_token_references tokens⟩ = .ok (s2, block))
    (h5 : s2.index ≠ (extract_token_references tokens).length - 1)
    (h6 : s2.peek = some r) :
    from_tokens parseBlock tokens =
      some (.error (.unexpectedToken r.token (some "leftover token"))) := by
  rw [from_tokens_run parseBlock tokens lastTok h1 h2 h3, h4]
  simp only [if_neg h5, h6]

/-- C4: with a root production that never reports NoMatch (the spec's engine
recovers every NoMatch by alternation before it reaches the top), an internal
UnexpectedToken failure propagates unchanged — same token, same additional
diagnostic — and every failure a caller observes past the Empty/NoEof guards is
an UnexpectedToken, coming either from the propagated internal failure or from
the leftover-token check. -/
theorem c4_failure_propagation {S L : Type}
    (parseBlock : ParserState → Except InternalAstError (ParserState × Block S L))
    (tokens : List Token) (lastTok : Token)
    (h1 : tokens.getLast? = some lastTok)
    (h2 : lastTok.token_type = TokenType.eof)
    (h3 : ((extract_token_references tokens).filter
      (fun r => !r.token.token_type.ignore)).length ≠ 1)
    (hnm : ∀ s, parseBlock s ≠ .error .noMatch) :
    (∀ t a, parseBlock ⟨0, extract_token_references tokens⟩ =
        .error (.unexpectedToken t a) →
      from_tokens parseBlock tokens = some (.error (.unexpectedToken t a))) ∧
    (∀ e, from_tokens parseBlock tokens = some (.error e) →
      ∃ t a, e = .unexpectedToken t a ∧
        (parseBlock ⟨0, extract_token_references tokens⟩ =
            .error (.unexpectedToken t a) ∨
          a = some "leftover token")) := by
  constructor
  · intro t a h4
    rw [from_tokens_run parseBlock tokens lastTok h1 h2 h3, h4]
  · intro e he
    cases hp : parseBlock ⟨0, extract_token_references tokens⟩ with
    | ok pr =>
      obtain ⟨st2, bl⟩ := pr
      by_cases hidx : st2.index = (extract_token_references tokens).length - 1
      · have hft : from_tokens parseBlock tokens =
            some (.ok ⟨bl, extract_token_references tokens⟩) := by
          rw [from_tokens_run parseBlock tokens lastTok h1 h2 h3, hp]
          simp [hidx]
        rw [hft] at he
        simp at he
      · cases hpk : st2.peek with
        | none =>
          have hft : from_tokens parseBlock tokens = none := by
            rw [from_tokens_run parseBlock tokens lastTok h1 h2 h3, hp]
            simp [hidx, hpk]
          rw [hft] at he
          simp at he
        | some r =>
          have hft : from_tokens parseBlock tokens =
              some (.error (.unexpectedToken r.token (some "leftover token"))) := by
            rw [from_tokens_run parseBlock tokens lastTok h1 h2 h3, hp]
            simp [hidx, hpk]
          rw [hft] at he
          simp only [Option.some_inj, Except.error.injEq] at he
          exact ⟨r.token, some "leftover token", he.symm, Or.inr rfl⟩
    | error ie =>
      cases ie with
      | noMatch => exact absurd hp (hnm _)
      | unexpectedToken t a =>
        have hft : from_tokens parseBlock tokens =
            some (.error (.unexpectedToken t a)) := by
          rw [from_tokens_run parseBlock tokens lastTok h1 h2 h3, hp]
        rw [hft] at he
        simp only [Option.some_inj, Except.error.injEq] at he
        exact ⟨t, a, he.symm, Or.inl rfl⟩

/-- C5: `from_tokens` returns Empty exactly on the empty token list, and NoEof
exactly when the list is non-empty and its last token is not end-of-file; in
both cases an error, never a tree. -/
theorem c5_guard_errors {S L : Type}
    (parseBlock : ParserState → Except InternalAstError (ParserState × Block S L)) :
    (∀ tokens : List Token,
      from_tokens parseBlock tokens = some (.error .empty) ↔ tokens = []) ∧
    (∀ tokens : List Token,
      from_tokens parseBlock tokens = some (.error .noEof) ↔
        ∃ lastTok, tokens.getLast? = some lastTok ∧
          lastTok.token_type ≠ TokenType.eof) := by
  constructor
  · intro tokens
    constructor
    · intro h
      cases hlast : tokens.getLast? with
      | none => exact List.getLast?_eq_none_iff.mp hlast
      | some lastTok =>
        by_cases h2 : lastTok.token_type = TokenType.eof
        · rcases from_tokens_eof_shape parseBlock tokens lastTok hlast h2 with
            ⟨a, ha, _⟩ | hn | ⟨t, add, ht⟩
          · rw [ha] at h; simp at h
          · rw [hn] at h; simp at h
          · rw [ht] at h; simp at h
        · rw [from_tokens_guard_noEof parseBlock tokens lastTok hlast h2] at h
          simp at h
    · intro h
      subst h
      simp [from_tokens]
  · intro tokens
    constructor
    · intro h
      cases hlast : tokens.getLast? with
      | none =>
        rw [from_tokens_guard_empty parseBlock tokens hlast] at h
        simp at h
      | some lastTok =>
        by_cases h2 : lastTok.token_type = TokenType.eof
        · rcases from_tokens_eof_shape parseBlock tokens lastTok hlast h2 with
            ⟨a, ha, _⟩ | hn | ⟨t, add, ht⟩
          · rw [ha] at h; simp at h
          · rw [hn] at h; simp at h
          · rw [ht] at h; simp at h
        · exact ⟨lastTok, rfl, h2⟩
    · rintro ⟨lastTok, hlast, h2⟩
      exact from_tokens_guard_noEof parseBlock tokens lastTok hlast h2

/-- C6: on a token list ending in end-of-file whose every other token is
trivia, `from_tokens` succeeds with a block of zero statements and no last
statement, keeping the full token-reference sequence, whose last reference is
the end-of-file reference. -/
theorem c6_trivia_only_empty_ast {S L : Type}
    (parseBlock : ParserState → Except InternalAstError (ParserState × Block S L))
    (tokens : List Token) (lastTok : Token)
    (h1 : tokens.getLast? = some lastTok)
    (h2 : lastTok.token_type = TokenType.eof)
    (h3 : ∀ t ∈ tokens.dropLast, t.token_type.is_trivia = true) :
    from_tokens parseBlock tokens =
      some (.ok ⟨⟨[], none⟩, extract_token_references tokens⟩) ∧
    (∃ r, (extract_token_references tokens).getLast? = some r ∧
      r.token.token_type = TokenType.eof) := by
  have heof : lastTok.token_type.is_trivia = false := by rw [h2]; rfl
  have hfilt : tokens.filter (fun t => !t.token_type.is_trivia) = [lastTok] := by
    conv_lhs => rw [← getLast?_split tokens lastTok h1]
    rw [List.filter_append]
    have hd : tokens.dropLast.filter (fun t => !t.token_type.is_trivia) = [] :=
      List.filter_eq_nil_iff.mpr (fun a ha => by simp [h3 a ha])
    rw [hd]
    simp [heof]
  have hmap := extract_map_token tokens
  rw [hfilt] at hmap
  obtain ⟨r, hrefs, hrtok⟩ :
      ∃ r, extract_token_references tokens = [r] ∧ r.token = lastTok := by
    cases hx : extract_token_references tokens with
    | nil => rw [hx] at hmap; simp at hmap
    | cons r rs =>
      rw [hx] at hmap
      simp only [List.map_cons, List.cons.injEq] at hmap
      have hrs : rs = [] := List.map_eq_nil_iff.mp hmap.2
      exact ⟨r, by rw [hrs], hmap.1⟩
  have hfilter1 : ((extract_token_references tokens).filter
      (fun r => !r.token.token_type.ignore)).length = 1 := by
    rw [hrefs]
    simp [TokenType.ignore, hrtok, heof]
  constructor
  · simp only [from_tokens, h1]
    rw [if_pos h2, if_pos hfilter1]
  · exact ⟨r, by rw [hrefs]; rfl, by rw [hrtok, h2]⟩

/-- C9: `Ast::iter_tokens` never yields the Ast's token sequence — its body is
the unconditional `unimplemented!` panic, modelled as `none` — contradicting
both the claim and the method's own documentation. -/
theorem c9_iter_tokens_diverges {S L : Type} (a : Ast S L) :
    a.iter_tokens = none := rfl

/-- C10: every Ast value `from_tokens` returns has a non-empty token-reference
vector ending in the end-of-file reference, so `Ast::eof` returns that
reference and its panic branch is unreachable. -/
theorem c10_eof_total {S L : Type}
    (parseBlock : ParserState → Except InternalAstError (ParserState × Block S L))
    (tokens : List Token) (a : Ast S L)
    (h : from_tokens parseBlock tokens = some (.ok a)) :
    a.tokens ≠ [] ∧
    ∃ r, a.eof = some r ∧ r.token.token_type = TokenType.eof := by
  cases hlast : tokens.getLast? with
  | none =>
    rw [from_tokens_guard_empty parseBlock tokens hlast] at h
    simp at h
  | some lastTok =>
    by_cases h2 : lastTok.token_type = TokenType.eof
    · have heof : lastTok.token_type.is_trivia = false := by rw [h2]; rfl
      have hat : a.tokens = extract_token_references tokens := by
        rcases from_tokens_eof_shape parseBlock tokens lastTok hlast h2 with
          ⟨b, hb, hbt⟩ | hn | ⟨t, add, ht⟩
        · rw [hb] at h
          have hba : b = a := by simpa using h
          rw [← hba]
          exact hbt
        · rw [hn] at h; simp at h
        · rw [ht] at h; simp at h
      obtain ⟨r, hr1, hr2⟩ := extract_getLast_eof tokens lastTok hlast heof
      refine ⟨?_, r, ?_, by rw [hr2]; exact h2⟩
      · intro hnil
        rw [hat] at hnil
        rw [hnil] at hr1
        simp at hr1
      · rw [Ast.eof, hat]
        exact hr1
    · rw [from_tokens_guard_noEof parseBlock tokens lastTok hlast h2] at h
      simp at h

/-- A small concrete token list, `x y <eof>`, used as witness input. -/
def sampleTokens : List Token :=
  [⟨.identifier "x"⟩, ⟨.identifier "y"⟩, ⟨.eof⟩]

theorem sampleTokens_eval : extract_token_references sampleTokens =
    [⟨[], ⟨.identifier "x"⟩, []⟩, ⟨[], ⟨.identifier "y"⟩, []⟩, ⟨[], ⟨.eof⟩, []⟩] := by
  simp [sampleTokens, extract_token_references, extractLoop_cons_sig,
    extractLoop_cons_trivia, extractLoop_nil, collectTrailing,
    TokenType.is_trivia, Token.breaksTrailingTrivia]

theorem sampleTokens_filter_len :
    ((extract_token_references sampleTokens).filter
      (fun r => !r.token.token_type.ignore)).length = 3 := by
  rw [sampleTokens_eval]
  rfl

theorem c3_leftover_token_witness :
    from_tokens (S := Unit) (L := Unit)
      (fun s => .ok (s, ⟨[], none⟩)) sampleTokens =
      some (.error (.unexpectedToken ⟨.identifier "x"⟩ (some "leftover token"))) :=
  c3_leftover_token (fun s => .ok (s, ⟨[], none⟩)) sampleTokens ⟨.eof⟩
    ⟨0, extract_token_references sampleTokens⟩ ⟨[], none⟩
    ⟨[], ⟨.identifier "x"⟩, []⟩
    rfl rfl
    (by rw [sampleTokens_filter_len]; decide)
    rfl
    (by rw [show (⟨0, extract_token_references sampleTokens⟩ : ParserState).index
          = 0 from rfl, sampleTokens_eval]; decide)
    (by simp [ParserState.peek, sampleTokens_eval])

theorem c4_failure_propagation_witness :
    from_tokens (S := Unit) (L := Unit)
      (fun _ => .error (.unexpectedToken ⟨.identifier "z"⟩ none)) sampleTokens =
      some (.error (.unexpectedToken ⟨.identifier "z"⟩ none)) :=
  (c4_failure_propagation (fun _ => .error (.unexpectedToken ⟨.identifier "z"⟩ none))
    sampleTokens ⟨.eof⟩ rfl rfl
    (by rw [sampleTokens_filter_len]; decide)
    (fun s => by simp)).1 ⟨.identifier "z"⟩ none rfl

/-- The token list of the spec's example `"-- just a comment"`: a single
comment, then end-of-file. -/
def commentOnlyTokens : List Token :=
  [⟨.singleLineComment " just a comment"⟩, ⟨.eof⟩]

theorem c6_trivia_only_empty_ast_witness :
    from_tokens (S := Unit) (L := Unit)
      (fun s => .ok (s, ⟨[], none⟩)) commentOnlyTokens =
      some (.ok ⟨⟨[], none⟩, extract_token_references commentOnlyTokens⟩) ∧
    (∃ r, (extract_token_references commentOnlyTokens).getLast? = some r ∧
      r.token.token_type = TokenType.eof) :=
  c6_trivia_only_empty_ast (fun s => .ok (s, ⟨[], none⟩)) commentOnlyTokens ⟨.eof⟩
    rfl rfl
    (by intro t ht; simp [commentOnlyTokens] at ht; subst ht; rfl)

theorem eofOnlyTokens_eval :
    extract_token_references [(⟨.eof⟩ : Token)] = [⟨[], ⟨.eof⟩, []⟩] := by
  simp [extract_token_references, extractLoop_cons_sig, extractLoop_nil,
    collectTrailing, TokenType.is_trivia]

theorem c10_input_eval :
    from_tokens (S := Unit) (L := Unit)
      (fun s => .ok (s, ⟨[], none⟩)) [(⟨.eof⟩ : Token)] =
      some (.ok ⟨⟨[], none⟩, [⟨[], ⟨.eof⟩, []⟩]⟩) := by
  simp [from_tokens, eofOnlyTokens_eval, TokenType.ignore, TokenType.is_trivia]

theorem c10_eof_total_witness :
    (⟨⟨[], none⟩, [⟨[], ⟨.eof⟩, []⟩]⟩ : Ast Unit Unit).tokens ≠ [] ∧
    ∃ r, (⟨⟨[], none⟩, [⟨[], ⟨.eof⟩, []⟩]⟩ : Ast Unit Unit).eof = some r ∧
      r.token.token_type = TokenType.eof :=
  c10_eof_total (fun s => .ok (s, ⟨[], none⟩)) [(⟨.eof⟩ : Token)]
    ⟨⟨[], none⟩, [⟨[], ⟨.eof⟩, []⟩]⟩ c10_input_eval

end FullMoon
